import Mathlib

/-!
Verification of the markdown-to-docx conversion core
(`src/services/docxConverter.ts` of jbullockgroup/n8n-md2docs).

The development shallowly embeds the converter:

* `processFormattedText` (inline formatter, lines 29-57 of the source):
  JavaScript `line.split(/(\*\*.*?\*\*|\*.*?\*|`.*?`)/g)` is modelled by a
  left-to-right scanner (`tryMatch` / `splitGo`) that at each position tries,
  in the regex's alternation order, a lazily-closed double-asterisk span, a
  lazily-closed single-asterisk span, and a lazily-closed backtick span;
  captured separators are kept as parts, exactly as a JS split with a
  capture group does.
* the token loop (lines 88-249) as a state machine `step` / `runTokens`
  over a `Token` type mirroring the marked token shapes the code consumes;
* the section loop and assembly (lines 66-83, 251-260) as `convertSections`;
* the fixed numbering pool (lines 263-279) as `numberingConfigs`.

Output `Paragraph` objects are modelled by the inductive `Block`, keeping
precisely the attributes the code sets (runs, numbering reference, spacing
that distinguishes block shapes); `TextRun` objects by the structure `Run`.
-/

/-- The backtick character (code 96), kept as a named constant. -/
def backtickChar : Char := Char.ofNat 96

/-- A docx `TextRun` as constructed by the converter: text, the two style
flags it ever sets, the font family, the half-point size, and the number of
hard line breaks (`break: 1`). -/
structure Run where
  text : String
  bold : Bool
  italics : Bool
  font : String
  size : Nat
  breakCount : Nat
deriving DecidableEq, Repr

/-- Plain run: `new TextRun({ text, font: 'New Times Roman', size: 24 })`. -/
def mkPlain (t : String) : Run := ⟨t, false, false, "New Times Roman", 24, 0⟩

/-- Bold run (source line 39). -/
def mkBold (t : String) : Run := ⟨t, true, false, "New Times Roman", 24, 0⟩

/-- Italic run (source line 41). -/
def mkItalic (t : String) : Run := ⟨t, false, true, "New Times Roman", 24, 0⟩

/-- Backtick-span run (source line 43): monospace font `Courier New`. -/
def mkCode (t : String) : Run := ⟨t, false, false, "Courier New", 24, 0⟩

/-- Hard line-break run (source line 52). -/
def breakRun : Run := ⟨"", false, false, "New Times Roman", 24, 1⟩

/-- `pat` is a prefix of `l` (JS `startsWith`). -/
def startsWithChars : List Char → List Char → Bool
  | [], _ => true
  | _ :: _, [] => false
  | p :: ps, c :: cs => p = c && startsWithChars ps cs

/-- `pat` is a suffix of `l` (JS `endsWith`). -/
def endsWithChars (pat l : List Char) : Bool :=
  startsWithChars pat.reverse l.reverse

/-- First occurrence of two consecutive asterisks: returns the characters
before the occurrence and the characters after it.  This is the lazy
closing search of `\*\*.*?\*\*`. -/
def firstOcc2 : List Char → Option (List Char × List Char)
  | [] => none
  | [_] => none
  | a :: b :: rest =>
    if a = '*' ∧ b = '*' then some ([], rest)
    else (firstOcc2 (b :: rest)).map fun p => (a :: p.1, p.2)

/-- First occurrence of the character `ch`: characters before it and after
it.  Lazy closing search of `\*.*?\*` and of the backtick span. -/
def firstOcc (ch : Char) : List Char → Option (List Char × List Char)
  | [] => none
  | c :: rest =>
    if c = ch then some ([], rest)
    else (firstOcc ch rest).map fun p => (c :: p.1, p.2)

/-- Regex alternative 1, `\*\*.*?\*\*`, anchored at the current position. -/
def matchBold : List Char → Option (List Char × List Char)
  | a :: b :: rest =>
    if a = '*' ∧ b = '*' then
      (firstOcc2 rest).map fun p => ('*' :: '*' :: (p.1 ++ ['*', '*']), p.2)
    else none
  | _ => none

/-- Regex alternative 2, `\*.*?\*`, anchored at the current position. -/
def matchItalic : List Char → Option (List Char × List Char)
  | c :: rest =>
    if c = '*' then
      (firstOcc '*' rest).map fun p => ('*' :: (p.1 ++ ['*']), p.2)
    else none
  | [] => none

/-- Regex alternative 3, the backtick span, anchored at the current
position. -/
def matchCode : List Char → Option (List Char × List Char)
  | c :: rest =>
    if c = backtickChar then
      (firstOcc backtickChar rest).map
        fun p => (backtickChar :: (p.1 ++ [backtickChar]), p.2)
    else none
  | [] => none

/-- Leftmost-first match of the alternation at the current position:
alternatives are tried in the order they appear in the regex. -/
def tryMatch (cs : List Char) : Option (List Char × List Char) :=
  match matchBold cs with
  | some r => some r
  | none =>
    match matchItalic cs with
    | some r => some r
    | none => matchCode cs

theorem firstOcc2_length : ∀ {cs x rem : List Char},
    firstOcc2 cs = some (x, rem) → rem.length < cs.length
  | [], _, _, h => by simp [firstOcc2] at h
  | [_], _, _, h => by simp [firstOcc2] at h
  | a :: b :: rest, x, rem, h => by
    by_cases hab : a = '*' ∧ b = '*'
    · simp only [firstOcc2, if_pos hab, Option.some_inj, Prod.mk.injEq] at h
      simp only [← h.2, List.length_cons]
      omega
    · simp only [firstOcc2, if_neg hab, Option.map_eq_some'] at h
      obtain ⟨p, hp, hx⟩ := h
      obtain ⟨p1, p2⟩ := p
      have := firstOcc2_length hp
      simp only [Prod.mk.injEq] at hx
      simp only [← hx.2]
      simp only [List.length_cons] at this ⊢
      omega

theorem firstOcc_length : ∀ {ch : Char} {cs x rem : List Char},
    firstOcc ch cs = some (x, rem) → rem.length < cs.length
  | _, [], _, _, h => by simp [firstOcc] at h
  | ch, c :: rest, x, rem, h => by
    by_cases hc : c = ch
    · simp only [firstOcc, if_pos hc, Option.some_inj, Prod.mk.injEq] at h
      simp only [← h.2, List.length_cons]
      omega
    · simp only [firstOcc, if_neg hc, Option.map_eq_some'] at h
      obtain ⟨p, hp, hx⟩ := h
      obtain ⟨p1, p2⟩ := p
      have := firstOcc_length hp
      simp only [Prod.mk.injEq] at hx
      simp only [← hx.2]
      simp only [List.length_cons] at this ⊢
      omega

theorem matchBold_length : ∀ {cs sep rem : List Char},
    matchBold cs = some (sep, rem) → rem.length < cs.length
  | [], _, _, h => by simp [matchBold] at h
  | [_], _, _, h => by simp [matchBold] at h
  | a :: b :: rest, sep, rem, h => by
    by_cases hab : a = '*' ∧ b = '*'
    · simp only [matchBold, if_pos hab, Option.map_eq_some'] at h
      obtain ⟨p, hp, hx⟩ := h
      obtain ⟨p1, p2⟩ := p
      have := firstOcc2_length hp
      simp only [Prod.mk.injEq] at hx
      simp only [← hx.2, List.length_cons]
      omega
    · simp [matchBold, if_neg hab] at h

theorem matchItalic_length : ∀ {cs sep rem : List Char},
    matchItalic cs = some (sep, rem) → rem.length < cs.length
  | [], _, _, h => by simp [matchItalic] at h
  | c :: rest, sep, rem, h => by
    by_cases hc : c = '*'
    · simp only [matchItalic, if_pos hc, Option.map_eq_some'] at h
      obtain ⟨p, hp, hx⟩ := h
      obtain ⟨p1, p2⟩ := p
      have := firstOcc_length hp
      simp only [Prod.mk.injEq] at hx
      simp only [← hx.2, List.length_cons]
      omega
    · simp [matchItalic, if_neg hc] at h

theorem matchCode_length : ∀ {cs sep rem : List Char},
    matchCode cs = some (sep, rem) → rem.length < cs.length
  | [], _, _, h => by simp [matchCode] at h
  | c :: rest, sep, rem, h => by
    by_cases hc : c = backtickChar
    · simp only [matchCode, if_pos hc, Option.map_eq_some'] at h
      obtain ⟨p, hp, hx⟩ := h
      obtain ⟨p1, p2⟩ := p
      have := firstOcc_length hp
      simp only [Prod.mk.injEq] at hx
      simp only [← hx.2, List.length_cons]
      omega
    · simp [matchCode, if_neg hc] at h

theorem tryMatch_length {cs sep rem : List Char}
    (h : tryMatch cs = some (sep, rem)) : rem.length < cs.length := by
  unfold tryMatch at h
  cases hb : matchBold cs with
  | some r =>
    rw [hb] at h
    cases r with
    | mk r1 r2 =>
      cases h
      exact matchBold_length hb
  | none =>
    rw [hb] at h
    cases hi : matchItalic cs with
    | some r =>
      rw [hi] at h
      cases r with
      | mk r1 r2 =>
        cases h
        exact matchItalic_length hi
    | none =>
      rw [hi] at h
      exact matchCode_length h

/-- The JS split-with-capture loop: scan `cs` left to right; at a match the
accumulated plain segment (possibly empty) and the captured separator are
both emitted, exactly as `String.prototype.split` with a capturing group. -/
def splitGo (acc cs : List Char) : List (List Char) :=
  match h : tryMatch cs with
  | some (sep, rem) => acc.reverse :: sep :: splitGo [] rem
  | none =>
    match cs with
    | [] => [acc.reverse]
    | c :: rest => splitGo (c :: acc) rest
termination_by cs.length
decreasing_by
  · exact tryMatch_length h
  · simp

theorem splitGo_match {acc cs sep rem : List Char}
    (h : tryMatch cs = some (sep, rem)) :
    splitGo acc cs = acc.reverse :: sep :: splitGo [] rem := by
  rw [splitGo]
  split
  · rename_i sep' rem' h'
    rw [h] at h'
    cases h'
    rfl
  · rename_i h'
    rw [h] at h'
    cases h'

theorem splitGo_nil (acc : List Char) : splitGo acc [] = [acc.reverse] := by
  rw [splitGo]
  rfl

theorem splitGo_cons {c : Char} {rest : List Char} (acc : List Char)
    (h : tryMatch (c :: rest) = none) :
    splitGo acc (c :: rest) = splitGo (c :: acc) rest := by
  rw [splitGo]
  split
  · rename_i sep' rem' h'
    rw [h] at h'
    cases h'
  · rfl

/-- JS `text.split('\n')`. -/
def splitLines : List Char → List (List Char)
  | [] => [[]]
  | c :: rest =>
    if c = '\n' then [] :: splitLines rest
    else
      match splitLines rest with
      | l :: ls => (c :: l) :: ls
      | [] => [[c]]

/-- The per-part branch of `processFormattedText` (source lines 37-47):
classify one split part by its delimiters and build the styled run, with
JS `slice(2, -2)` / `slice(1, -1)` modelled by drop/take. -/
def classify (part : List Char) : Run :=
  if startsWithChars ['*', '*'] part && endsWithChars ['*', '*'] part then
    mkBold (String.mk ((part.drop 2).take (part.length - 4)))
  else if startsWithChars ['*'] part && endsWithChars ['*'] part &&
      !(startsWithChars ['*', '*'] part) then
    mkItalic (String.mk ((part.drop 1).take (part.length - 2)))
  else if startsWithChars [backtickChar] part &&
      endsWithChars [backtickChar] part then
    mkCode (String.mk ((part.drop 1).take (part.length - 2)))
  else
    mkPlain (String.mk part)

/-- One line of `processFormattedText`: split on the alternation, drop empty
parts (`parts.filter(part => part !== '')`), map each part to a run. -/
def processLine (line : List Char) : List Run :=
  ((splitGo [] line).filter (fun p => p ≠ [])).map classify

/-- Join per-line run lists with a hard line-break run between consecutive
lines (source lines 49-53). -/
def joinWithBreaks : List (List Run) → List Run
  | [] => []
  | [rs] => rs
  | rs :: rest => rs ++ breakRun :: joinWithBreaks rest

/-- The inline formatter `processFormattedText` (source lines 29-57). -/
def processFormattedText (text : String) : List Run :=
  joinWithBreaks ((splitLines text.toList).map processLine)

/-- The marked tokens the converter consumes (its `switch` arms plus a
catch-all for unrecognized kinds, whose type string is carried as data). -/
inductive Token where
  | heading (depth : Nat) (text : String)
  | paragraph (text : String)
  | list (ordered : Bool) (items : List String)
  | blockquote (tokens : List Token)
  | code (text : String)
  | hr
  | table (header : List String) (rows : List (List String))
  | space
  | other (kind : String)

/-- `token.type` as the JS code observes it. -/
def tokenType : Token → String
  | .heading _ _ => "heading"
  | .paragraph _ => "paragraph"
  | .list _ _ => "list"
  | .blockquote _ => "blockquote"
  | .code _ => "code"
  | .hr => "hr"
  | .table _ _ => "table"
  | .space => "space"
  | .other kind => kind

/-- One output `Paragraph`, keeping the attributes that distinguish the
nine `children.push` sites of the source:

* `blankSpacer` — the empty paragraph with spacing 80/80 pushed by the
  blank-run transition rule (line 97);
* `sectionSpacer` — the empty-`TextRun` paragraph with spacing 120/120
  pushed for empty sections (line 77) and between sections (line 256);
* `heading` (line 108), `para` (line 120) with spacing 60/60,
* `listItem` (line 134) with its numbering reference (`none` = bullet),
  and its `before` spacing (80 for the first item, 40 for the rest;
  `after` is always 40),
* `quote` (line 154) with indent 720 and a grey left border,
* `codeBlock` (line 178) with shaded background,
* `rule` (line 188), the bottom-border horizontal rule,
* `table` (line 235). -/
inductive Block where
  | blankSpacer
  | sectionSpacer
  | heading (depth : Nat) (text : String)
  | para (runs : List Run)
  | listItem (runs : List Run) (numberingRef : Option String) (before : Nat)
  | quote (runs : List Run)
  | codeBlock (runs : List Run)
  | rule
  | table (header : List (List Run)) (rows : List (List (List Run)))
deriving DecidableEq, Repr

/-- The mutable loop state of the token loop (source lines 88-90). -/
structure TState where
  lastTokenType : Option String
  consecutiveBreaks : Nat
  listCounter : Nat
deriving DecidableEq, Repr

/-- The blank-run transition rule (source lines 93-102).  JS tests
`lastTokenType && lastTokenType !== token.type`: a `null` (and, by JS
truthiness, an empty-string) `lastTokenType` skips the rule.  Returns the
updated `consecutiveBreaks` and the spacer emitted, if any. -/
def transition (st : TState) (t : Token) : Nat × List Block :=
  match st.lastTokenType with
  | some lt =>
    if lt ≠ "" ∧ lt ≠ tokenType t then
      if tokenType t = "space" then
        (st.consecutiveBreaks + 1,
          if st.consecutiveBreaks + 1 ≤ 1 then [Block.blankSpacer] else [])
      else (0, [])
    else (st.consecutiveBreaks, [])
  | none => (st.consecutiveBreaks, [])

/-- The item loop of the `list` arm (source lines 131-143): one `ListItem`
per item, `before` spacing 80 for the first item and 40 afterwards. -/
def listItemBlocks (ref : Option String) : Bool → List String → List Block
  | _, [] => []
  | isFirstItem, item :: rest =>
    Block.listItem (processFormattedText item) ref
        (if isFirstItem then 80 else 40) ::
      listItemBlocks ref false rest

/-- The nested-token filter of the `blockquote` arm (source lines 150-168):
only nested `paragraph` tokens are rendered. -/
def quoteBlock : Token → Option Block
  | .paragraph text => some (Block.quote (processFormattedText text))
  | _ => none

/-- The `switch (token.type)` (source lines 104-246).  Returns the updated
`consecutiveBreaks`, the updated `listCounter`, the pushed blocks, and the
diagnostics logged (`default` arm, line 243). -/
def dispatch (cb lc : Nat) : Token → Nat × Nat × List Block × List String
  | .heading depth text => (0, lc, [Block.heading depth text], [])
  | .paragraph text =>
    (0, lc, [Block.para (processFormattedText text)], [])
  | .list ordered items =>
    (0, if ordered then lc + 1 else lc,
      listItemBlocks
        (if ordered then some ("list-" ++ toString lc) else none)
        true items,
      [])
  | .blockquote nested => (0, lc, nested.filterMap quoteBlock, [])
  | .code text =>
    (0, lc,
      [Block.codeBlock ((processFormattedText text).map
        fun r => { r with font := "Courier New", size := 20 })],
      [])
  | .hr => (0, lc, [Block.rule], [])
  | .table header rows =>
    (0, lc,
      [Block.table (header.map fun cell => processFormattedText cell)
        (rows.map fun row => row.map fun cell => processFormattedText cell)],
      [])
  | .space => (cb, lc, [], [])
  | .other kind => (0, lc, [], ["Unhandled token type: " ++ kind])

/-- One iteration of the token loop: the transition rule, then the switch,
then `lastTokenType = token.type` (line 248). -/
def step (st : TState) (t : Token) : TState × List Block × List String :=
  let pre := transition st t
  let d := dispatch pre.1 st.listCounter t
  (⟨some (tokenType t), d.1, d.2.1⟩, pre.2 ++ d.2.2.1, d.2.2.2)

/-- The whole token loop (source lines 92-249), accumulating the pushed
blocks and the logged diagnostics. -/
def runTokens (st : TState) : List Token → List Block × List String
  | [] => ([], [])
  | t :: ts =>
    let r := step st t
    let rest := runTokens r.1 ts
    (r.2.1 ++ rest.1, r.2.2 ++ rest.2)

/-- A section's blocks: the token loop started on the fresh per-section
state `lastTokenType = null, consecutiveBreaks = 0, listCounter = 0`
(source lines 88-90). -/
def processSection (ts : List Token) : List Block :=
  (runTokens ⟨none, 0, 0⟩ ts).1

/-- JS whitespace test used by `String.prototype.trim` (ASCII part). -/
def isJsWs (c : Char) : Bool :=
  c = ' ' || c = '\n' || c = '\t' || c = '\r' ||
    c = Char.ofNat 11 || c = Char.ofNat 12

/-- JS `section.trim()`. -/
def jsTrim (cs : List Char) : List Char :=
  ((cs.dropWhile isJsWs).reverse.dropWhile isJsWs).reverse

/-- JS `markdownContent.split('\\p')` (source line 67): split on the exact
two-character marker backslash-`p`, scanning left to right. -/
def splitMarker : List Char → List (List Char)
  | [] => [[]]
  | [c] => [[c]]
  | a :: b :: rest =>
    if a = '\\' ∧ b = 'p' then [] :: splitMarker rest
    else
      match splitMarker (b :: rest) with
      | l :: ls => (a :: l) :: ls
      | [] => [[a]]

/-- Number of occurrences of the break marker in the input, counted the way
the left-to-right split consumes them. -/
def countMarker : List Char → Nat
  | [] => 0
  | [_] => 0
  | a :: b :: rest =>
    if a = '\\' ∧ b = 'p' then countMarker rest + 1
    else countMarker (b :: rest)

/-- The section loop (source lines 70-261), with the section index carried
explicitly.  An empty-after-trim section pushes one section spacer unless it
is the first section, and `continue`s (so it never reaches the
between-sections push of line 256); a non-empty section is trimmed, lexed
by the external tokenizer (a parameter), run through the token loop, and
followed by one section spacer unless it is the last section. -/
def convertSections (lexer : String → List Token) :
    Nat → List (List Char) → List Block
  | _, [] => []
  | idx, s :: rest =>
    (if jsTrim s = [] then
      (if idx > 0 then [Block.sectionSpacer] else [])
    else
      processSection (lexer (String.mk (jsTrim s))) ++
        (if rest = [] then [] else [Block.sectionSpacer])) ++
    convertSections lexer (idx + 1) rest

/-- The block sequence of the whole document (`allChildren`). -/
def convertDoc (lexer : String → List Token) (content : String) :
    List Block :=
  convertSections lexer 0 (splitMarker content.toList)

/-- One entry of the numbering pool (source lines 265-278): reference
string, `format: "decimal"`, `text: "%1."`, indent left 720 hanging 360. -/
structure NumberingConfig where
  reference : String
  format : String
  text : String
  indentLeft : Nat
  indentHanging : Nat
deriving DecidableEq, Repr

/-- The fixed pool of 100 numbering definitions (source lines 263-279),
built for every document regardless of its content. -/
def numberingConfigs : List NumberingConfig :=
  (List.range 100).map fun i =>
    ⟨"list-" ++ toString i, "decimal", "%1.", 720, 360⟩

/-- The core's output contract: the document's ordered block sequence plus
the numbering definition set handed to the renderer
(`convertMarkdownToDocx`, minus the external `Packer`). -/
def convertMarkdownToDocx (lexer : String → List Token) (content : String) :
    List Block × List NumberingConfig :=
  (convertDoc lexer content, numberingConfigs)

/-- `Block` classifier: the collapsed blank-run spacer. -/
def isBlankSpacer : Block → Bool
  | .blankSpacer => true
  | _ => false

/-- `Block` classifier: the empty-section / between-sections spacer. -/
def isSectionSpacer : Block → Bool
  | .sectionSpacer => true
  | _ => false

/-- The numbering references of the ordered-list items of a block list, in
document order. -/
def orderedRefs (bs : List Block) : List String :=
  bs.filterMap fun b =>
    match b with
    | .listItem _ (some r) _ => some r
    | _ => none

/-- The `before` spacing of each list item of a block list, in order. -/
def listItemBefore : Block → Option Nat
  | .listItem _ _ before => some before
  | _ => none

/-- The number of style flags (bold, italic, monospace-font) a run
carries. -/
def styleFlagCount (r : Run) : Nat :=
  (if r.bold then 1 else 0) + (if r.italics then 1 else 0) +
    (if r.font = "Courier New" then 1 else 0)

/-- Spec-side count for the blank-run rule: the number of maximal runs of
blank-space tokens that are preceded by a token of a different type.  A
position is counted when a token whose type is neither `space` nor the
empty string (JS truthiness of `lastTokenType`) is immediately followed by
a `space`-typed token; every maximal blank run not at the very start of the
sequence has exactly one such position. -/
def spaceRunStarts : List Token → Nat
  | [] => 0
  | [_] => 0
  | a :: b :: rest =>
    (if tokenType a != "" && tokenType a != "space" &&
        tokenType b == "space" then 1 else 0) +
      spaceRunStarts (b :: rest)

/-- Whether a previous token type makes the transition rule able to fire
on an incoming blank token. -/
def prevTriggers : Option String → Bool
  | some lt => lt != "" && lt != "space"
  | none => false

/-- `spaceRunStarts` relative to an explicit previous-type value, aligned
with the state machine's traversal. -/
def spaceRunStartsFrom (prev : Option String) : List Token → Nat
  | [] => 0
  | t :: ts =>
    (if prevTriggers prev && tokenType t == "space" then 1 else 0) +
      spaceRunStartsFrom (some (tokenType t)) ts

/-- Loop-state invariant: away from a blank run (the last token type is
not `space`), the blank counter is zero. -/
def stInv (st : TState) : Prop :=
  st.lastTokenType ≠ some "space" → st.consecutiveBreaks = 0

theorem mem_listItemBlocks : ∀ {ref : Option String} {isF : Bool}
    {items : List String} {b : Block}, b ∈ listItemBlocks ref isF items →
    ∃ runs nref bef, b = Block.listItem runs nref bef
  | _, _, [], _, h => by simp [listItemBlocks] at h
  | ref, isF, item :: rest, b, h => by
    simp only [listItemBlocks, List.mem_cons] at h
    rcases h with h | h
    · exact ⟨_, _, _, h⟩
    · exact mem_listItemBlocks h

theorem dispatch_mem_not_spacer {cb lc : Nat} {t : Token} {b : Block}
    (hb : b ∈ (dispatch cb lc t).2.2.1) :
    isSectionSpacer b = false ∧ isBlankSpacer b = false := by
  cases t with
  | heading depth text =>
    simp only [dispatch, List.mem_singleton] at hb
    simp [hb, isSectionSpacer, isBlankSpacer]
  | paragraph text =>
    simp only [dispatch, List.mem_singleton] at hb
    simp [hb, isSectionSpacer, isBlankSpacer]
  | list ordered items =>
    simp only [dispatch] at hb
    obtain ⟨runs, nref, bef, rfl⟩ := mem_listItemBlocks hb
    simp [isSectionSpacer, isBlankSpacer]
  | blockquote nested =>
    simp only [dispatch] at hb
    obtain ⟨t', ht', hq⟩ := List.mem_filterMap.mp hb
    cases t' <;> simp only [quoteBlock] at hq <;> try cases hq
    simp [isSectionSpacer, isBlankSpacer]
  | code text =>
    simp only [dispatch, List.mem_singleton] at hb
    simp [hb, isSectionSpacer, isBlankSpacer]
  | hr =>
    simp only [dispatch, List.mem_singleton] at hb
    simp [hb, isSectionSpacer, isBlankSpacer]
  | table header rows =>
    simp only [dispatch, List.mem_singleton] at hb
    simp [hb, isSectionSpacer, isBlankSpacer]
  | space => simp [dispatch] at hb
  | other kind => simp [dispatch] at hb

theorem dispatch_countP_section (cb lc : Nat) (t : Token) :
    ((dispatch cb lc t).2.2.1).countP isSectionSpacer = 0 := by
  rw [List.countP_eq_zero]
  intro b hb
  simp [(dispatch_mem_not_spacer hb).1]

theorem dispatch_countP_blank (cb lc : Nat) (t : Token) :
    ((dispatch cb lc t).2.2.1).countP isBlankSpacer = 0 := by
  rw [List.countP_eq_zero]
  intro b hb
  simp [(dispatch_mem_not_spacer hb).2]

theorem transition_pre_cases (st : TState) (t : Token) :
    (transition st t).2 = [] ∨ (transition st t).2 = [Block.blankSpacer] := by
  unfold transition
  cases st.lastTokenType with
  | none => exact Or.inl rfl
  | some lt =>
    by_cases h1 : lt ≠ "" ∧ lt ≠ tokenType t
    · by_cases h2 : tokenType t = "space"
      · simp only [if_pos h1, if_pos h2]
        by_cases h3 : st.consecutiveBreaks + 1 ≤ 1
        · simp [h3]
        · simp [h3]
      · simp [if_pos h1, if_neg h2]
    · simp [if_neg h1]

theorem runTokens_countP_section : ∀ (ts : List Token) (st : TState),
    ((runTokens st ts).1).countP isSectionSpacer = 0
  | [], _ => by simp [runTokens]
  | t :: ts, st => by
    simp only [runTokens, List.countP_append]
    have hstep : ((step st t).2.1).countP isSectionSpacer = 0 := by
      simp only [step, List.countP_append]
      have hd := dispatch_countP_section (transition st t).1 st.listCounter t
      rcases transition_pre_cases st t with hpre | hpre <;>
        simp [hpre, hd, isSectionSpacer]
    rw [hstep, runTokens_countP_section ts (step st t).1]

theorem splitMarker_ne_nil : ∀ cs : List Char, splitMarker cs ≠ []
  | [] => by simp [splitMarker]
  | [c] => by simp [splitMarker]
  | a :: b :: rest => by
    by_cases h : a = '\\' ∧ b = 'p'
    · simp [splitMarker, if_pos h]
    · simp only [splitMarker, if_neg h]
      cases hsm : splitMarker (b :: rest) with
      | nil => exact absurd hsm (splitMarker_ne_nil (b :: rest))
      | cons l ls => simp

theorem splitMarker_length : ∀ cs : List Char,
    (splitMarker cs).length = countMarker cs + 1
  | [] => by simp [splitMarker, countMarker]
  | [c] => by simp [splitMarker, countMarker]
  | a :: b :: rest => by
    by_cases h : a = '\\' ∧ b = 'p'
    · simp [splitMarker, countMarker, if_pos h, splitMarker_length rest]
    · have ih := splitMarker_length (b :: rest)
      simp only [splitMarker, countMarker, if_neg h]
      cases hsm : splitMarker (b :: rest) with
      | nil => exact absurd hsm (splitMarker_ne_nil (b :: rest))
      | cons l ls =>
        rw [hsm] at ih
        simpa using ih

theorem convertSections_countP (lexer : String → List Token) :
    ∀ (ss : List (List Char)) (idx : Nat),
    (∀ s ∈ ss, jsTrim s ≠ []) →
    ((convertSections lexer idx ss).countP isSectionSpacer) = ss.length - 1
  | [], idx, _ => by simp [convertSections]
  | s :: rest, idx, h => by
    have hs : jsTrim s ≠ [] := h s (by simp)
    have ih := convertSections_countP lexer rest (idx + 1)
      (fun x hx => h x (by simp [hx]))
    simp only [convertSections, if_neg hs, List.countP_append, processSection]
    rw [runTokens_countP_section]
    cases rest with
    | nil => simp [ih, isSectionSpacer]
    | cons r rs =>
      simp only [List.length_cons] at ih ⊢
      have hne : (r :: rs : List (List Char)) ≠ [] := by simp
      simp [if_neg hne, ih, isSectionSpacer, List.countP_cons]
      omega

theorem step_lastTokenType (st : TState) (t : Token) :
    (step st t).1.lastTokenType = some (tokenType t) := rfl

theorem step_inv {st : TState} (t : Token) (h : stInv st) :
    stInv (step st t).1 := by
  intro hne
  cases t <;>
    simp only [step, dispatch, tokenType] at hne ⊢ <;>
    first
      | rfl
      | exact absurd rfl hne

theorem step_countP_blank {st : TState} (t : Token) (h : stInv st) :
    ((step st t).2.1).countP isBlankSpacer =
      (if prevTriggers st.lastTokenType && tokenType t == "space"
        then 1 else 0) := by
  simp only [step, List.countP_append]
  rw [dispatch_countP_blank]
  unfold transition prevTriggers
  cases hlt : st.lastTokenType with
  | none => simp
  | some lt =>
    by_cases h1 : lt ≠ "" ∧ lt ≠ tokenType t
    · by_cases h2 : tokenType t = "space"
      · have hlt' : st.lastTokenType ≠ some "space" := by
          rw [hlt]
          intro hx
          cases hx
          exact h1.2 h2.symm
        have hcb : st.consecutiveBreaks = 0 := h hlt'
        have hne'' : lt ≠ "space" := fun hx => h1.2 (hx.trans h2.symm)
        simp [if_pos h1, h2, hcb, isBlankSpacer, h1.1, hne'',
          List.countP_cons]
      · have h2' : (tokenType t == "space") = false := by
          simp [h2]
        simp [if_pos h1, if_neg h2, h2']
    · push_neg at h1
      by_cases he : lt = ""
      · simp [he]
      · have hlt2 : lt = tokenType t := h1 he
        by_cases h2 : tokenType t = "space"
        · simp [he, hlt2, h2]
        · simp [he, hlt2, h2]

theorem runTokens_countP_blank : ∀ (ts : List Token) (st : TState),
    stInv st →
    ((runTokens st ts).1).countP isBlankSpacer =
      spaceRunStartsFrom st.lastTokenType ts
  | [], st, _ => by simp [runTokens, spaceRunStartsFrom]
  | t :: ts, st, h => by
    simp only [runTokens, List.countP_append, spaceRunStartsFrom]
    rw [step_countP_blank t h,
      runTokens_countP_blank ts (step st t).1 (step_inv t h),
      step_lastTokenType]

theorem spaceRunStartsFrom_cons : ∀ (ts : List Token) (a : Token),
    spaceRunStartsFrom (some (tokenType a)) ts = spaceRunStarts (a :: ts)
  | [], a => by simp [spaceRunStartsFrom, spaceRunStarts]
  | b :: rest, a => by
    simp only [spaceRunStartsFrom, spaceRunStarts, prevTriggers]
    rw [spaceRunStartsFrom_cons rest b]

theorem transition_pre_empty {t : Token} (st : TState)
    (h : tokenType t ≠ "space") : (transition st t).2 = [] := by
  unfold transition
  cases st.lastTokenType with
  | none => rfl
  | some lt =>
    by_cases h1 : lt ≠ "" ∧ lt ≠ tokenType t
    · simp [if_pos h1, if_neg h]
    · simp [if_neg h1]

theorem listItemBlocks_false (ref : Option String) :
    ∀ items : List String,
    listItemBlocks ref false items =
      items.map fun item =>
        Block.listItem (processFormattedText item) ref 40
  | [] => by simp [listItemBlocks]
  | item :: rest => by
    simp [listItemBlocks, listItemBlocks_false ref rest]

/-- C2 (counterexample): the claim as stated is false.  On the section
token sequence `[space, paragraph "x"]` the leading maximal blank run
(length 1) should, per the claim, produce exactly one Spacer, so the
section's blocks should contain exactly one blank-run Spacer; the code's
transition rule is guarded by `lastTokenType` being non-null, so a blank
run at the very start of a section emits none. -/
theorem C2_cex_leading_blank_run_emits_no_spacer :
    ¬ ((processSection [Token.space, Token.paragraph "x"]).countP
        isBlankSpacer = 1) := by
  decide

/-- C2 (amended): within a section, the translator emits exactly one
blank-run Spacer per maximal run of consecutive blank-space tokens that is
preceded by a token of a different type, regardless of the run's length;
a maximal blank run at the very start of the section emits no Spacer (and
a run whose preceding token has the empty-string type — possible only for
an unrecognized token kind equal to `""`, by JS truthiness — also emits
none). -/
theorem C2_one_spacer_per_triggered_blank_run (ts : List Token) :
    (processSection ts).countP isBlankSpacer = spaceRunStarts ts := by
  unfold processSection
  rw [runTokens_countP_blank ts ⟨none, 0, 0⟩ (fun _ => rfl)]
  cases ts with
  | nil => simp [spaceRunStartsFrom, spaceRunStarts]
  | cons a rest =>
    simp only [spaceRunStartsFrom, prevTriggers]
    rw [spaceRunStartsFrom_cons rest a]
    simp

/-- C3 (counterexample): the claim as stated is false.  For the ordered
list token with items `["a", "b"]` the first item's block carries `before`
spacing 80 and the second carries 40, so the first item's leading spacing
is not reduced relative to the subsequent item's. -/
theorem C3_cex_first_item_spacing_not_reduced :
    (processSection [Token.list true ["a", "b"]]).filterMap listItemBefore
        = [80, 40] ∧
      ¬ (80 < 40) := by
  constructor
  · simp [processSection, runTokens, step, transition, dispatch,
      listItemBlocks, listItemBefore]
  · simp

/-- C3 (amended): for every list token with at least two items, processed
in any loop state, the translator emits one ListItem block per item in the
items' order; the first item's block carries increased leading (`before`)
spacing (80) relative to each subsequent item's block (40); an ordered
list allocates the fresh numbering reference `list-<counter>` and
increments the counter, while an unordered list leaves the numbering
state untouched and its items carry no reference. -/
theorem C3_list_items_in_order_first_increased_spacing (st : TState)
    (ord : Bool) (a b : String) (rest : List String) :
    (step st (Token.list ord (a :: b :: rest))).2.1 =
        Block.listItem (processFormattedText a)
            (if ord then some ("list-" ++ toString st.listCounter)
              else none) 80 ::
          Block.listItem (processFormattedText b)
            (if ord then some ("list-" ++ toString st.listCounter)
              else none) 40 ::
          rest.map (fun item =>
            Block.listItem (processFormattedText item)
              (if ord then some ("list-" ++ toString st.listCounter)
                else none) 40) ∧
      (step st (Token.list ord (a :: b :: rest))).1.listCounter =
        (if ord then st.listCounter + 1 else st.listCounter) := by
  constructor
  · simp only [step]
    rw [transition_pre_empty st (by simp [tokenType])]
    simp [dispatch, listItemBlocks, listItemBlocks_false]
  · simp [step, dispatch]

/-- C6: an unrecognized token kind is non-fatal (the embedding is a total
function): it emits no block, records the diagnostic
`Unhandled token type: <kind>`, resets the blank-run counter to zero as a
non-blank token would, leaves the list counter unchanged, and processing
continues with the remaining tokens from that state. -/
theorem C6_unrecognized_token_skipped (st : TState) (k : String)
    (ts : List Token)
    (h : k ∉ (["heading", "paragraph", "list", "blockquote", "code",
        "hr", "table", "space"] : List String)) :
    runTokens st (Token.other k :: ts) =
      ((runTokens ⟨some k, 0, st.listCounter⟩ ts).1,
        ("Unhandled token type: " ++ k) ::
          (runTokens ⟨some k, 0, st.listCounter⟩ ts).2) := by
  have hsp : tokenType (Token.other k) ≠ "space" := by
    simp only [tokenType]
    intro hx
    exact h (by simp [hx])
  simp only [runTokens, step]
  rw [transition_pre_empty st hsp]
  simp [dispatch, tokenType]

/-- C6 witness at the unrecognized kind `html`. -/
theorem C6_witness :
    ("html" ∉ (["heading", "paragraph", "list", "blockquote", "code",
        "hr", "table", "space"] : List String)) ∧
      runTokens ⟨none, 0, 0⟩ [Token.other "html", Token.hr] =
        ((runTokens ⟨some "html", 0, 0⟩ [Token.hr]).1,
          ("Unhandled token type: " ++ "html") ::
            (runTokens ⟨some "html", 0, 0⟩ [Token.hr]).2) :=
  ⟨by decide,
    C6_unrecognized_token_skipped ⟨none, 0, 0⟩ "html" [Token.hr]
      (by decide)⟩

/-- C7: a blockquote token, processed in any loop state, emits exactly one
Quote block per nested paragraph token, in the nested tokens' order, with
the paragraph's inline-formatted runs; nested tokens of any other kind
contribute nothing. -/
theorem C7_blockquote_renders_nested_paragraphs (st : TState)
    (nested : List Token) :
    (step st (Token.blockquote nested)).2.1 =
      nested.filterMap fun q =>
        match q with
        | Token.paragraph text =>
          some (Block.quote (processFormattedText text))
        | _ => none := by
  simp only [step]
  rw [transition_pre_empty st (by simp [tokenType])]
  simp only [dispatch, List.nil_append]
  rfl

/-- C8: the numbering definition set attached to the output is a fixed
pool, independent of the lexer and of the input: it always has exactly 100
entries, with references `list-0` through `list-99` in order, and every
entry uses decimal format, the `%1.` template, and indentation left 720
with hanging 360. -/
theorem C8_numbering_pool_fixed_hundred (lexer lexer' : String → List Token)
    (content content' : String) :
    (convertMarkdownToDocx lexer content).2 =
        (convertMarkdownToDocx lexer' content').2 ∧
      (convertMarkdownToDocx lexer content).2.length = 100 ∧
      (convertMarkdownToDocx lexer content).2.map
          (fun c => c.reference) =
        (List.range 100).map (fun i => "list-" ++ toString i) ∧
      (convertMarkdownToDocx lexer content).2.map (fun c => c.format) =
        List.replicate 100 "decimal" ∧
      (convertMarkdownToDocx lexer content).2.map (fun c => c.text) =
        List.replicate 100 "%1." ∧
      (convertMarkdownToDocx lexer content).2.map
          (fun c => (c.indentLeft, c.indentHanging)) =
        List.replicate 100 (720, 360) := by
  refine ⟨rfl, by simp [convertMarkdownToDocx, numberingConfigs], ?_, ?_,
    ?_, ?_⟩ <;>
    simp only [convertMarkdownToDocx, numberingConfigs, List.map_map] <;>
    rfl

theorem jsTrim_of_all_ws {cs : List Char} (h : ∀ c ∈ cs, isJsWs c = true) :
    jsTrim cs = [] := by
  unfold jsTrim
  have h1 : cs.dropWhile isJsWs = [] := by
    rw [List.dropWhile_eq_nil_iff]
    exact fun c hc => h c hc
  simp [h1]

theorem splitMarker_of_no_backslash : ∀ cs : List Char,
    (∀ c ∈ cs, c ≠ '\\') → splitMarker cs = [cs]
  | [], _ => by simp [splitMarker]
  | [c], _ => by simp [splitMarker]
  | a :: b :: rest, h => by
    have ha : a ≠ '\\' := h a (by simp)
    have hcond : ¬ (a = '\\' ∧ b = 'p') := fun hx => ha hx.1
    have ih := splitMarker_of_no_backslash (b :: rest)
      (fun c hc => h c (by simp at hc ⊢; tauto))
    simp [splitMarker, if_neg hcond, ih]

/-- C9: an input that is empty or consists only of whitespace converts,
with any lexer, to an empty block sequence — no Spacer and no other block
(the embedding is a total function, so no error is possible). -/
theorem C9_whitespace_only_input_empty_output
    (lexer : String → List Token) (content : String)
    (h : ∀ c ∈ content.toList, isJsWs c = true) :
    convertDoc lexer content = [] := by
  unfold convertDoc
  have hb : ∀ c ∈ content.toList, c ≠ '\\' := by
    intro c hc hx
    have := h c hc
    rw [hx] at this
    simp [isJsWs] at this
  rw [splitMarker_of_no_backslash content.toList hb]
  have ht : jsTrim content.data = [] := jsTrim_of_all_ws h
  simp [convertSections, ht]

/-- C9 witness at the whitespace-only input consisting of two spaces and a
newline. -/
theorem C9_witness :
    (∀ c ∈ ("  \n" : String).toList, isJsWs c = true) ∧
      convertDoc (fun _ => []) "  \n" = [] :=
  ⟨by decide, C9_whitespace_only_input_empty_output (fun _ => []) "  \n"
    (by decide)⟩

/-- C1: evaluation of the conversion at the failing input.  With a lexer
that turns each of the two sections of the document `"x\py"` into a single
one-item ordered list (as `marked` does for the markdown input
`"1. a\p1. b"`), the two ordered lists in different sections both receive
the numbering reference `list-0`, because `listCounter` is re-declared at
0 for every section; the reference list is not duplicate-free, so the two
ordered lists do not get distinct references and, in docx, their numbering
continues from one list into the other. -/
theorem C1_ordered_lists_reuse_reference_across_sections :
    orderedRefs (convertDoc (fun _ => [Token.list true ["a"]]) "x\\py") =
        ["list-0", "list-0"] ∧
      ¬ (["list-0", "list-0"] : List String).Nodup := by
  constructor
  · decide
  · decide

/-- C4 (counterexample): the claim as stated is false.  The input
`"\p\pa"` contains k = 2 break markers; the output starts with a Spacer at
position 0 (forbidden by the claim), and contains 1 section Spacer rather
than 2: the first (empty) section contributes none, the second (empty)
section contributes the position-0 Spacer, and the final section `"a"` is
last, so the between-sections push never fires. -/
theorem C4_cex_spacer_at_position_zero :
    (convertDoc (fun _ => [Token.hr]) "\\p\\pa").head? =
        some Block.sectionSpacer ∧
      ¬ ((convertDoc (fun _ => [Token.hr]) "\\p\\pa").countP
          isSectionSpacer = countMarker ("\\p\\pa".toList)) := by
  constructor
  · decide
  · decide

/-- C4 (amended): for every input string all of whose sections (after
splitting on the two-character break marker and trimming) are non-empty,
the assembled output contains exactly k section Spacer blocks, where k is
the number of marker occurrences: one between each pair of adjacent
sections.  (When empty sections occur, each empty section other than the
first contributes one Spacer, the between-sections push is skipped for it,
and a Spacer can then sit at position 0 of the output.) -/
theorem C4_spacer_count_with_nonempty_sections
    (lexer : String → List Token) (content : String)
    (h : ∀ s ∈ splitMarker content.toList, jsTrim s ≠ []) :
    (convertDoc lexer content).countP isSectionSpacer =
      countMarker content.toList := by
  unfold convertDoc
  rw [convertSections_countP lexer (splitMarker content.toList) 0 h,
    splitMarker_length content.toList]
  omega

/-- C4 witness at the input `"a\pb"` (one marker, two non-empty
sections). -/
theorem C4_witness :
    (∀ s ∈ splitMarker ("a\\pb" : String).toList, jsTrim s ≠ []) ∧
      (convertDoc (fun _ => [Token.hr]) "a\\pb").countP isSectionSpacer =
        countMarker ("a\\pb" : String).toList :=
  ⟨by decide, C4_spacer_count_with_nonempty_sections (fun _ => [Token.hr])
    "a\\pb" (by decide)⟩

theorem splitLines_no_newline : ∀ {l : List Char},
    (∀ ch ∈ l, ch ≠ '\n') → splitLines l = [l]
  | [], _ => by simp [splitLines]
  | c :: rest, h => by
    have hc : c ≠ '\n' := h c (by simp)
    have ih : splitLines rest = [rest] :=
      splitLines_no_newline (fun ch hch => h ch (by simp [hch]))
    simp [splitLines, if_neg hc, ih]

theorem firstOcc2_before : ∀ {x : List Char} (r : List Char),
    (∀ ch ∈ x, ch ≠ '*') →
    firstOcc2 (x ++ '*' :: '*' :: r) = some (x, r)
  | [], r, _ => by simp [firstOcc2]
  | cx :: x', r, h => by
    have hcx : cx ≠ '*' := h cx (by simp)
    have ih : firstOcc2 (x' ++ '*' :: '*' :: r) = some (x', r) :=
      firstOcc2_before r (fun ch hch => h ch (by simp [hch]))
    cases hy : x' ++ '*' :: '*' :: r with
    | nil => simp at hy
    | cons d ds =>
      have hcond : ¬ (cx = '*' ∧ d = '*') := fun hx => hcx hx.1
      rw [List.cons_append, hy, firstOcc2]
      rw [← hy, ih]
      simp [if_neg hcond]

theorem firstOcc_before {ch : Char} : ∀ {x : List Char} (r : List Char),
    (∀ c ∈ x, c ≠ ch) →
    firstOcc ch (x ++ ch :: r) = some (x, r)
  | [], r, _ => by simp [firstOcc]
  | cx :: x', r, h => by
    have hcx : cx ≠ ch := h cx (by simp)
    have ih : firstOcc ch (x' ++ ch :: r) = some (x', r) :=
      firstOcc_before r (fun c hc => h c (by simp [hc]))
    simp [firstOcc, if_neg hcx, ih]

theorem classify_boldSep (b : List Char) :
    classify ('*' :: '*' :: (b ++ ['*', '*'])) = mkBold (String.mk b) := by
  unfold classify
  have h1 : startsWithChars ['*', '*']
      ('*' :: '*' :: (b ++ ['*', '*'])) = true := by
    simp [startsWithChars]
  have h2 : endsWithChars ['*', '*']
      ('*' :: '*' :: (b ++ ['*', '*'])) = true := by
    simp [endsWithChars, startsWithChars, List.reverse_append]
  rw [h1, h2]
  simp only [Bool.and_self, if_pos]
  congr 1
  congr 1
  rw [List.drop_succ_cons, List.drop_succ_cons, List.drop_zero]
  have hl : ('*' :: '*' :: (b ++ ['*', '*'])).length - 4 = b.length := by
    simp
  rw [hl, ← List.take_left b ['*', '*']]
  simp

theorem classify_italicSep (i : List Char) (hne : i ≠ [])
    (hstar : ∀ ch ∈ i, ch ≠ '*') :
    classify ('*' :: (i ++ ['*'])) = mkItalic (String.mk i) := by
  cases i with
  | nil => exact absurd rfl hne
  | cons ci i' =>
    have hci : ci ≠ '*' := hstar ci (by simp)
    unfold classify
    have h1 : startsWithChars ['*', '*']
        ('*' :: ((ci :: i') ++ ['*'])) = false := by
      simp [startsWithChars]
      intro hx
      exact absurd hx.symm hci
    have h2 : startsWithChars ['*'] ('*' :: ((ci :: i') ++ ['*'])) = true := by
      simp [startsWithChars]
    have h3 : endsWithChars ['*'] ('*' :: ((ci :: i') ++ ['*'])) = true := by
      simp [endsWithChars, startsWithChars, List.reverse_append]
    rw [h1, h2, h3]
    simp only [Bool.false_and, Bool.and_false, if_neg, Bool.not_false,
      Bool.and_true, Bool.and_self, if_pos, Bool.false_eq_true,
      not_false_eq_true]
    congr 1
    congr 1
    rw [List.drop_succ_cons, List.drop_zero]
    have hl : ('*' :: ((ci :: i') ++ ['*'])).length - 2 =
        (ci :: i').length := by
      simp
    rw [hl]
    exact List.take_left _ _

theorem classify_codeSep (c : List Char) :
    classify (backtickChar :: (c ++ [backtickChar])) =
      mkCode (String.mk c) := by
  have hbt : ('*' : Char) ≠ backtickChar := by decide
  unfold classify
  have h1 : startsWithChars ['*', '*']
      (backtickChar :: (c ++ [backtickChar])) = false := by
    simp [startsWithChars]
    intro hx
    exact absurd hx hbt
  have h2 : startsWithChars ['*']
      (backtickChar :: (c ++ [backtickChar])) = false := by
    simp [startsWithChars]
    intro hx
    exact absurd hx hbt
  have h3 : startsWithChars [backtickChar]
      (backtickChar :: (c ++ [backtickChar])) = true := by
    simp [startsWithChars]
  have h4 : endsWithChars [backtickChar]
      (backtickChar :: (c ++ [backtickChar])) = true := by
    simp [endsWithChars, startsWithChars, List.reverse_append]
  rw [h1, h2, h3, h4]
  simp only [Bool.false_and, if_neg, Bool.and_self, if_pos,
    Bool.false_eq_true, not_false_eq_true]
  congr 1
  congr 1
  rw [List.drop_succ_cons, List.drop_zero]
  have hl : (backtickChar :: (c ++ [backtickChar])).length - 2 =
      c.length := by
    simp
  rw [hl]
  exact List.take_left _ _

theorem matchBold_head_ne {a : Char} (cs : List Char) (h : a ≠ '*') :
    matchBold (a :: cs) = none := by
  cases cs with
  | nil => rfl
  | cons b rest =>
    have hcond : ¬ (a = '*' ∧ b = '*') := fun hx => h hx.1
    simp [matchBold, hcond]

theorem matchItalic_head_ne {a : Char} (cs : List Char) (h : a ≠ '*') :
    matchItalic (a :: cs) = none := by
  simp [matchItalic, h]

/-- C5: for every paragraph text of the exact form
`**<b>***<i>*` followed by a backtick-delimited `<c>` — one bold span, one
italic span, one code span, nothing between them — where the three span
contents are non-empty and free of asterisks, backticks and newlines, the
inline formatter produces exactly three runs, in source order, styled
bold, italic and monospace respectively, each carrying exactly the span's
text (in particular no zero-length run is emitted). -/
theorem C5_inline_formatter_three_spans (b i c : List Char)
    (hb0 : b ≠ []) (hi0 : i ≠ []) (hc0 : c ≠ [])
    (hb : ∀ ch ∈ b, ch ≠ '*' ∧ ch ≠ backtickChar ∧ ch ≠ '\n')
    (hi : ∀ ch ∈ i, ch ≠ '*' ∧ ch ≠ backtickChar ∧ ch ≠ '\n')
    (hc : ∀ ch ∈ c, ch ≠ '*' ∧ ch ≠ backtickChar ∧ ch ≠ '\n') :
    processFormattedText (String.mk
        ('*' :: '*' :: (b ++ '*' :: '*' :: '*' ::
          (i ++ '*' :: backtickChar :: (c ++ [backtickChar]))))) =
      [mkBold (String.mk b), mkItalic (String.mk i),
        mkCode (String.mk c)] := by
  have hnl : ∀ ch ∈ ('*' :: '*' :: (b ++ '*' :: '*' :: '*' ::
      (i ++ '*' :: backtickChar :: (c ++ [backtickChar])))), ch ≠ '\n' := by
    intro ch hch
    simp only [List.mem_cons, List.mem_append] at hch
    rcases hch with rfl | rfl | hch | rfl | rfl | rfl | hch | rfl | rfl |
        hch | rfl | hch
    · decide
    · decide
    · exact (hb ch hch).2.2
    · decide
    · decide
    · decide
    · exact (hi ch hch).2.2
    · decide
    · decide
    · exact (hc ch hch).2.2
    · decide
    · simp at hch
  have hm1 : tryMatch ('*' :: '*' :: (b ++ '*' :: '*' :: '*' ::
      (i ++ '*' :: backtickChar :: (c ++ [backtickChar])))) =
      some ('*' :: '*' :: (b ++ ['*', '*']),
        '*' :: (i ++ '*' :: backtickChar :: (c ++ [backtickChar]))) := by
    have hfo : firstOcc2 (b ++ '*' :: '*' :: ('*' ::
        (i ++ '*' :: backtickChar :: (c ++ [backtickChar])))) =
        some (b,
          '*' :: (i ++ '*' :: backtickChar :: (c ++ [backtickChar]))) :=
      firstOcc2_before _ (fun ch hch => (hb ch hch).1)
    simp [tryMatch, matchBold, hfo]
  obtain ⟨ci, i', rfl⟩ : ∃ ci i', i = ci :: i' := by
    cases i with
    | nil => exact absurd rfl hi0
    | cons ci i' => exact ⟨ci, i', rfl⟩
  have hci : ci ≠ '*' := (hi ci (by simp)).1
  have hm2 : tryMatch ('*' :: ((ci :: i') ++ '*' :: backtickChar ::
      (c ++ [backtickChar]))) =
      some ('*' :: ((ci :: i') ++ ['*']),
        backtickChar :: (c ++ [backtickChar])) := by
    have hfo : firstOcc '*' ((ci :: i') ++ '*' :: (backtickChar ::
        (c ++ [backtickChar]))) =
        some (ci :: i', backtickChar :: (c ++ [backtickChar])) :=
      firstOcc_before _ (fun ch hch => (hi ch hch).1)
    simp only [List.cons_append] at hfo ⊢
    simp [tryMatch, matchBold, matchItalic, hci, hfo]
  have hm3 : tryMatch (backtickChar :: (c ++ [backtickChar])) =
      some (backtickChar :: (c ++ [backtickChar]), ([] : List Char)) := by
    have hmb : matchBold (backtickChar :: (c ++ [backtickChar])) = none :=
      matchBold_head_ne _ (by decide)
    have hmi : matchItalic (backtickChar :: (c ++ [backtickChar])) =
        none := matchItalic_head_ne _ (by decide)
    have hfo : firstOcc backtickChar (c ++ backtickChar :: []) =
        some (c, []) :=
      firstOcc_before _ (fun ch hch => (hc ch hch).2.1)
    simp only [tryMatch, hmb, hmi, matchCode, if_pos rfl]
    simp at hfo ⊢
    simp [hfo]
  unfold processFormattedText
  rw [show (String.mk ('*' :: '*' :: (b ++ '*' :: '*' :: '*' ::
      ((ci :: i') ++ '*' :: backtickChar ::
        (c ++ [backtickChar]))))).toList =
      ('*' :: '*' :: (b ++ '*' :: '*' :: '*' ::
        ((ci :: i') ++ '*' :: backtickChar :: (c ++ [backtickChar]))))
    from rfl]
  rw [splitLines_no_newline hnl]
  simp only [List.map_cons, List.map_nil, joinWithBreaks]
  unfold processLine
  rw [splitGo_match hm1]
  rw [splitGo_match hm2]
  rw [splitGo_match hm3]
  rw [splitGo_nil]
  simp only [List.reverse_nil]
  have hcl2 : classify ('*' :: ci :: (i' ++ ['*'])) =
      mkItalic (String.mk (ci :: i')) := by
    have h0 := classify_italicSep (ci :: i') (by simp)
      (fun ch hch => (hi ch hch).1)
    simpa using h0
  simp [classify_boldSep, hcl2, classify_codeSep]

/-- C5 witness at the paragraph text `**bold***italic*` followed by the
backtick-delimited span `code`. -/
theorem C5_witness :
    (['b', 'o', 'l', 'd'] : List Char) ≠ [] ∧
      (['i', 't', 'a', 'l', 'i', 'c'] : List Char) ≠ [] ∧
      (['c', 'o', 'd', 'e'] : List Char) ≠ [] ∧
      (∀ ch ∈ (['b', 'o', 'l', 'd'] : List Char),
        ch ≠ '*' ∧ ch ≠ backtickChar ∧ ch ≠ '\n') ∧
      (∀ ch ∈ (['i', 't', 'a', 'l', 'i', 'c'] : List Char),
        ch ≠ '*' ∧ ch ≠ backtickChar ∧ ch ≠ '\n') ∧
      (∀ ch ∈ (['c', 'o', 'd', 'e'] : List Char),
        ch ≠ '*' ∧ ch ≠ backtickChar ∧ ch ≠ '\n') ∧
      processFormattedText (String.mk
          ('*' :: '*' :: (['b', 'o', 'l', 'd'] ++ '*' :: '*' :: '*' ::
            (['i', 't', 'a', 'l', 'i', 'c'] ++ '*' :: backtickChar ::
              (['c', 'o', 'd', 'e'] ++ [backtickChar]))))) =
        [mkBold (String.mk ['b', 'o', 'l', 'd']),
          mkItalic (String.mk ['i', 't', 'a', 'l', 'i', 'c']),
          mkCode (String.mk ['c', 'o', 'd', 'e'])] :=
  ⟨by decide, by decide, by decide, by decide, by decide, by decide,
    C5_inline_formatter_three_spans ['b', 'o', 'l', 'd']
      ['i', 't', 'a', 'l', 'i', 'c'] ['c', 'o', 'd', 'e']
      (by decide) (by decide) (by decide)
      (by decide) (by decide) (by decide)⟩

theorem classify_styleFlagCount (part : List Char) :
    styleFlagCount (classify part) ≤ 1 := by
  unfold classify
  split_ifs <;>
    simp [styleFlagCount, mkBold, mkItalic, mkCode, mkPlain]

theorem breakRun_styleFlagCount : styleFlagCount breakRun = 0 := by
  simp [styleFlagCount, breakRun]

theorem mem_joinWithBreaks : ∀ {ls : List (List Run)} {r : Run},
    r ∈ joinWithBreaks ls → r = breakRun ∨ ∃ l ∈ ls, r ∈ l
  | [], r, h => by simp [joinWithBreaks] at h
  | [rs], r, h => by
    simp only [joinWithBreaks] at h
    exact Or.inr ⟨rs, by simp, h⟩
  | rs :: rs' :: rest, r, h => by
    simp only [joinWithBreaks, List.mem_append, List.mem_cons] at h
    rcases h with h | h | h
    · exact Or.inr ⟨rs, by simp, h⟩
    · exact Or.inl h
    · rcases mem_joinWithBreaks h with h' | ⟨l, hl, hr⟩
      · exact Or.inl h'
      · exact Or.inr ⟨l, by simp [hl], hr⟩

/-- C10: every run emitted by the inline formatter carries at most one of
the three style markers bold / italic / monospace font: the formatter
never combines two of them on one run (nested or malformed emphasis
degrades to a single style or plain text). -/
theorem C10_runs_at_most_one_style_flag (text : String) (r : Run)
    (h : r ∈ processFormattedText text) : styleFlagCount r ≤ 1 := by
  unfold processFormattedText at h
  rcases mem_joinWithBreaks h with rfl | ⟨l, hl, hr⟩
  · simp [breakRun_styleFlagCount]
  · obtain ⟨line, _, rfl⟩ := List.mem_map.mp hl
    unfold processLine at hr
    obtain ⟨part, _, rfl⟩ := List.mem_map.mp hr
    exact classify_styleFlagCount part

/-- C10 witness: the plain run produced for the text `x` is in the
formatter's output and carries no style flag. -/
theorem C10_witness :
    (mkPlain "x" ∈ processFormattedText "x") ∧
      styleFlagCount (mkPlain "x") ≤ 1 := by
  have hm : processFormattedText "x" = [mkPlain "x"] := by
    have h0 : tryMatch ['x'] = none := by decide
    unfold processFormattedText
    rw [show ("x" : String).toList = ['x'] from rfl]
    rw [splitLines_no_newline (by decide)]
    simp only [List.map_cons, List.map_nil, joinWithBreaks]
    unfold processLine
    rw [splitGo_cons [] h0, splitGo_nil]
    have hbx : backtickChar ≠ 'x' := by decide
    simp [classify, startsWithChars, endsWithChars, mkPlain, hbx]
  refine ⟨by rw [hm]; simp, ?_⟩
  exact C10_runs_at_most_one_style_flag "x" (mkPlain "x")
    (by rw [hm]; simp)
